import Mathlib

/-!
Package ginmill: route bundles applied to a gin engine.

A shallow embedding of `ginmill.go` (package `ginmill`).

* Go slices are modelled as slice headers (`RoutesInfo`) pointing into a store
  of backing arrays (`Mem`), so that sharing of a backing array between two
  slice values is visible.
* `*gin.Engine` belongs to a third-party library; the two capabilities the
  package and its tests use (`Handle`, `Routes`) and the constructor `gin.New`
  are the parameter `Gin`.  A registration either returns or panics; `With`
  discards the value `Handle` returns, so a panic is the only way a failed
  registration can surface.
* `World` holds the backing arrays, the engine objects, the server objects
  and a ghost log with one entry per `Handle` call issued.
-/

namespace Ginmill

/-! ## Data model -/

/-- A `gin.HandlerFunc` value: `none` is the nil function, `some k` the
function whose identity is `k`. -/
abbrev HandlerFunc := Option Nat

/-- Modelled from the spec: the struct `gin.RouteInfo` of the routing library,
a route descriptor: method, path, handler name and handler. -/
structure RouteInfo where
  Method : String
  Path : String
  Handler : String
  HandlerFunc : HandlerFunc
deriving DecidableEq

/-- The zero value of `gin.RouteInfo`, what `make` fills a new array with. -/
def RouteInfo.zero : RouteInfo := ⟨"", "", "", none⟩

/-- A value of type `gin.RoutesInfo` (`[]RouteInfo`): a slice header. `arr` is
the address of the backing array (`none` for the nil slice), `off` the index
of the first element in it and `len` the length.  The capacity is left out:
nothing in the package reads it. -/
structure RoutesInfo where
  arr : Option Nat
  off : Nat
  len : Nat
deriving DecidableEq

/-- The store of backing arrays, addressed by position. -/
abbrev Mem := List (List RouteInfo)

/-- A slice header is well formed in a store: the nil slice has length 0, any
other points at an allocated array and lies within it. -/
def RoutesInfo.valid (mem : Mem) (s : RoutesInfo) : Bool :=
  match s.arr with
  | none => s.len == 0
  | some a =>
    match mem[a]? with
    | none => false
    | some xs => decide (s.off + s.len ≤ xs.length)

/-- The elements of a slice in index order, as `for _, r := range s` visits
them. -/
def elems (mem : Mem) (s : RoutesInfo) : List RouteInfo :=
  match s.arr with
  | none => []
  | some a => (((mem[a]?).getD []).drop s.off).take s.len

/-- The expression `s[i]`: `none` when the index is out of range (a panic). -/
def index (mem : Mem) (s : RoutesInfo) (i : Nat) : Option RouteInfo :=
  if i < s.len then
    match s.arr with
    | none => none
    | some a => (mem[a]?).bind (fun xs => xs[s.off + i]?)
  else none

/-- The assignment `s[i] = v` (also `s[i].Path = p`, with `v` the old element
with its path replaced): `none` when the index is out of range (a panic). -/
def setIndex (mem : Mem) (s : RoutesInfo) (i : Nat) (v : RouteInfo) : Option Mem :=
  if i < s.len then
    match s.arr with
    | none => none
    | some a =>
      match mem[a]? with
      | none => none
      | some xs => some (mem.set a (xs.set (s.off + i) v))
  else none

/-- The builtin `make(gin.RoutesInfo, n)`: a new array of `n` zero values and
a slice over all of it. -/
def make (mem : Mem) (n : Nat) : Mem × RoutesInfo :=
  (mem ++ [List.replicate n RouteInfo.zero], ⟨some mem.length, 0, n⟩)

/-- The builtin `copy(dst, src)`: the first `min(len(dst), len(src))` elements
of `src` are written over the first elements of `dst`; the number copied is
returned. -/
def copy (mem : Mem) (dst src : RoutesInfo) : Mem × Nat :=
  let vals := (elems mem src).take dst.len
  match dst.arr with
  | none => (mem, 0)
  | some a =>
    match mem[a]? with
    | none => (mem, 0)
    | some xs =>
      (mem.set a (xs.take dst.off ++ vals ++ xs.drop (dst.off + vals.length)), vals.length)

/-- The struct `Features`: its one field, the slice header `routes`.  A
`*Features` is represented by the struct it points at: the field is
unexported and assigned only in `NewFeatures`. -/
structure Features where
  routes : RoutesInfo
deriving DecidableEq

/-- `NewFeatures`: the slice header is stored as given, `routes: routes`. -/
def NewFeatures (routes : RoutesInfo) : Features :=
  ⟨routes⟩

/-- `Features.GetRoutes`: `r := make(gin.RoutesInfo, len(f.routes))`,
`copy(r, f.routes)`, `return r`. -/
def GetRoutes (mem : Mem) (f : Features) : Mem × RoutesInfo :=
  let (m1, r) := make mem f.routes.len
  ((copy m1 r f.routes).1, r)

/-! ## The engine, the server and the world -/

/-- The part of `github.com/gin-gonic/gin` the package and its tests use, over
the state `σ` of an engine object: `gin.New()`, the registration primitive
`(*Engine).Handle(method, path, handler)` and `(*Engine).Routes()`.  A call of
`Handle` leaves a new engine state and either returns (`none`) or panics with
a message (`some msg`); the value it returns is discarded by `With`. -/
structure Gin (σ : Type) where
  New : σ
  Handle : σ → String → String → HandlerFunc → σ × Option String
  Routes : σ → List RouteInfo

/-- One issued call `E.Handle(method, path, handler)`: the address of the
engine `E` and the three arguments. -/
structure Call where
  engine : Nat
  method : String
  path : String
  handler : HandlerFunc
deriving DecidableEq

/-- The call `With` issues for a descriptor on the engine at address `e`. -/
def Call.of (e : Nat) (r : RouteInfo) : Call :=
  ⟨e, r.Method, r.Path, r.HandlerFunc⟩

/-- The struct `Server`: `Engine` is the address of the engine object it
wraps.  The spec's Server is created with an initialised engine handle; the
embedded `Ginmill` interface value is never read by the package. -/
structure Server where
  Engine : Nat
deriving DecidableEq

/-- The program state: backing arrays, engine objects and server objects by
address, and the log of `Handle` calls issued so far (oldest first). -/
structure World (σ : Type) where
  mem : Mem
  engines : Nat → σ
  servers : Nat → Server
  calls : List Call

/-- How a call ends: it returns a value or it panics. -/
inductive Result (α : Type) where
  | ret (a : α)
  | panic (msg : String)
deriving DecidableEq

/-- The statement `s.Engine.Handle(r.Method, r.Path, r.HandlerFunc)` for the
server at address `s`: the engine `s.Engine` points at is updated, the call
is logged, and the panic of the engine, if any, is passed on. -/
def callHandle {σ : Type} (G : Gin σ) (w : World σ) (s : Nat) (r : RouteInfo) :
    World σ × Option String :=
  let e := (w.servers s).Engine
  let out := G.Handle (w.engines e) r.Method r.Path r.HandlerFunc
  (⟨w.mem, Function.update w.engines e out.1, w.servers, w.calls ++ [Call.of e r]⟩, out.2)

/-- The loop `for _, r := range f.routes` of `With` over the elements still
to visit: it ends when they are used up or when a call panics. -/
def With.loop {σ : Type} (G : Gin σ) (s : Nat) : World σ → List RouteInfo → World σ × Option String
  | w, [] => (w, none)
  | w, r :: rs =>
    match callHandle G w s r with
    | (w1, none) => With.loop G s w1 rs
    | (w1, some msg) => (w1, some msg)

/-- `(*Server).With` on the server at address `s`: the loop over the elements
of `f.routes` (no call changes a backing array, so they are read up front),
then `return s`. -/
def With {σ : Type} (G : Gin σ) (w : World σ) (s : Nat) (f : Features) : World σ × Result Nat :=
  match With.loop G s w (elems w.mem f.routes) with
  | (w1, none) => (w1, Result.ret s)
  | (w1, some msg) => (w1, Result.panic msg)

/-- The two statements `s.With(f)`, `s.With(f)` of
`TestServer_With_MultipleCalls`: the second runs only if the first returned. -/
def WithTwice {σ : Type} (G : Gin σ) (w : World σ) (s : Nat) (f : Features) :
    World σ × Result Nat :=
  match With G w s f with
  | (w1, Result.ret _) => With G w1 s f
  | (w1, Result.panic msg) => (w1, Result.panic msg)

/-- The state of the engine the server at address `s` wraps, `*s.Engine`. -/
def World.engineOf {σ : Type} (w : World σ) (s : Nat) : σ :=
  w.engines (w.servers s).Engine

/-! ## Engines -/

/-- Every registration of the list, made one after the other from state `st`,
returns. -/
def Gin.accepts {σ : Type} (G : Gin σ) : σ → List RouteInfo → Bool
  | _, [] => true
  | st, r :: rs =>
    match G.Handle st r.Method r.Path r.HandlerFunc with
    | (st1, none) => G.accepts st1 rs
    | (_, some _) => false

/-- The engine state after the registrations of the list, made one after the
other from state `st`. -/
def Gin.after {σ : Type} (G : Gin σ) : σ → List RouteInfo → σ
  | st, [] => st
  | st, r :: rs => G.after (G.Handle st r.Method r.Path r.HandlerFunc).1 rs

/-- Modelled from the spec: a router engine (an external collaborator) whose
registration primitive fails, by a panic that leaves the route table as it
was, on an empty method or a duplicate method and path, and otherwise adds
the route at the end of its list. -/
def rejecting (nm : HandlerFunc → String) : Gin (List RouteInfo) where
  New := []
  Handle st m p h :=
    if m = "" then (st, some "http method is not valid")
    else if st.any (fun r => decide (r.Method = m ∧ r.Path = p)) then
      (st, some "handlers are already registered for path")
    else (st ++ [⟨m, p, nm h, h⟩], none)
  Routes st := st

/-- The route list with one more route of a method tree: the route goes
behind the last route of its method, or to the end when the method is new. -/
def insertGrouped (r : RouteInfo) : List RouteInfo → List RouteInfo
  | [] => [r]
  | x :: xs =>
    if x.Method = r.Method ∧ xs.all (fun y => decide (y.Method ≠ r.Method)) then x :: r :: xs
    else x :: insertGrouped r xs

/-- Modelled from the spec: a router engine (an external collaborator) that
rejects what `rejecting` rejects and keeps its routes grouped by method, the
methods in the order they were first registered, as an engine with one route
tree per method lists them. -/
def grouping (nm : HandlerFunc → String) : Gin (List RouteInfo) where
  New := []
  Handle st m p h :=
    if m = "" then (st, some "http method is not valid")
    else if st.any (fun r => decide (r.Method = m ∧ r.Path = p)) then
      (st, some "handlers are already registered for path")
    else (insertGrouped ⟨m, p, nm h, h⟩ st, none)
  Routes st := st

/-! ## Concrete inputs -/

/-- A handler name as gin derives it from a function value. -/
def nameOf : HandlerFunc → String
  | none => ""
  | some _ => "main.handler"

/-- The descriptor of `GET /get` with handler 1, named as `nameOf` names it. -/
def getRoute : RouteInfo := ⟨"GET", "/get", "main.handler", some 1⟩

/-- The same endpoint under another handler name. -/
def getRouteRenamed : RouteInfo := ⟨"GET", "/get", "other", some 1⟩

/-- A descriptor with an empty method, an empty path and a nil handler. -/
def badRoute : RouteInfo := ⟨"", "", "", none⟩

/-- The descriptor of `POST /post` with handler 2. -/
def postRoute : RouteInfo := ⟨"POST", "/post", "main.handler", some 2⟩

/-- A store with two backing arrays: `getRoute`, `postRoute`, `badRoute` at
address 0 and `getRouteRenamed` at address 1. -/
def mem0 : Mem := [[getRoute, postRoute, badRoute], [getRouteRenamed]]

/-- A world over `mem0` whose engines are all new, whose server at address
`a` wraps the engine at address `a`, and in which no call was issued. -/
def world0 {σ : Type} (G : Gin σ) : World σ :=
  ⟨mem0, fun _ => G.New, fun a => ⟨a⟩, []⟩

/-- The descriptor of `GET /users` with handler 3. -/
def usersRoute : RouteInfo := ⟨"GET", "/users", "main.handler", some 3⟩

/-- A store with one backing array: `getRoute`, `postRoute`, `usersRoute` and
`getRoute` once more. -/
def mem2 : Mem := [[getRoute, postRoute, usersRoute, getRoute]]

/-- A world over `mem2`, otherwise as `world0`. -/
def world2 {σ : Type} (G : Gin σ) : World σ :=
  ⟨mem2, fun _ => G.New, fun a => ⟨a⟩, []⟩

/-- The world `world0` after the routes `getRoute` and `postRoute` were
registered through the server at address 0: its engine is no longer new. -/
def world1 {σ : Type} (G : Gin σ) : World σ :=
  (With G (world0 G) 0 (NewFeatures ⟨some 0, 0, 2⟩)).1

/-! ## Slices and the store -/

theorem elems_length (mem : Mem) (s : RoutesInfo) (h : s.valid mem = true) :
    (elems mem s).length = s.len := by
  unfold RoutesInfo.valid at h
  unfold elems
  cases ha : s.arr with
  | none => simp [ha] at h ⊢; omega
  | some a =>
    simp only [ha] at h ⊢
    cases hm : mem[a]? with
    | none => simp [hm] at h
    | some xs =>
      simp only [hm, decide_eq_true_eq] at h
      simp only [Option.getD_some, List.length_take, List.length_drop]
      omega

theorem getElem?_append_of_some (mem ex : Mem) (a : Nat) (xs : List RouteInfo)
    (h : mem[a]? = some xs) : (mem ++ ex)[a]? = some xs := by
  have hlt : a < mem.length := by
    by_contra hc
    rw [List.getElem?_eq_none (by omega)] at h
    exact Option.noConfusion h
  rw [List.getElem?_append_left hlt]
  exact h

theorem valid_append (mem ex : Mem) (s : RoutesInfo) (h : s.valid mem = true) :
    s.valid (mem ++ ex) = true := by
  unfold RoutesInfo.valid at h ⊢
  cases ha : s.arr with
  | none => simpa [ha] using h
  | some a =>
    simp only [ha] at h ⊢
    cases hm : mem[a]? with
    | none => simp [hm] at h
    | some xs =>
      rw [getElem?_append_of_some mem ex a xs hm]
      simpa [hm] using h

theorem elems_append (mem ex : Mem) (s : RoutesInfo) (h : s.valid mem = true) :
    elems (mem ++ ex) s = elems mem s := by
  unfold RoutesInfo.valid at h
  unfold elems
  cases ha : s.arr with
  | none => rfl
  | some a =>
    simp only [ha] at h ⊢
    cases hm : mem[a]? with
    | none => simp [hm] at h
    | some xs => rw [getElem?_append_of_some mem ex a xs hm]

theorem index_eq_elems (mem : Mem) (s : RoutesInfo) (i : Nat) (hi : i < s.len) :
    index mem s i = (elems mem s)[i]? := by
  unfold index elems
  rw [if_pos hi]
  cases s.arr with
  | none => simp
  | some a =>
    cases hm : mem[a]? with
    | none => simp [hm]
    | some xs => simp [hm, List.getElem?_take, hi]

theorem set_length_append (mem : Mem) (old new : List RouteInfo) :
    (mem ++ [old]).set mem.length new = mem ++ [new] := by
  induction mem with
  | nil => rfl
  | cons x xs ih => simp [ih]

theorem getElem?_length_append (mem : Mem) (xs : List RouteInfo) :
    (mem ++ [xs])[mem.length]? = some xs := by
  simp

/-- On a well-formed slice `GetRoutes` allocates one new array, a copy of the
elements of `f.routes`, and returns the slice over all of it. -/
theorem GetRoutes_eq (mem : Mem) (f : Features) (h : f.routes.valid mem = true) :
    GetRoutes mem f = (mem ++ [elems mem f.routes], ⟨some mem.length, 0, f.routes.len⟩) := by
  have hl := elems_length mem f.routes h
  have he := elems_append mem [List.replicate f.routes.len RouteInfo.zero] f.routes h
  have ht : (elems mem f.routes).take f.routes.len = elems mem f.routes :=
    List.take_of_length_le (by omega)
  have hd : (List.replicate f.routes.len RouteInfo.zero).drop f.routes.len = [] :=
    List.drop_of_length_le (by simp)
  unfold GetRoutes make copy
  simp only [he, getElem?_length_append, ht, hl, List.take_zero, List.nil_append,
    Nat.zero_add, hd, List.append_nil, set_length_append]

theorem elems_new (mem : Mem) (xs : List RouteInfo) :
    elems (mem ++ [xs]) ⟨some mem.length, 0, xs.length⟩ = xs := by
  simp [elems]

/-! ## The loop of `With` -/

section Loop

variable {σ : Type} (G : Gin σ) (s : Nat)

theorem loop_cons_ok (w : World σ) (r : RouteInfo) (rs : List RouteInfo)
    (h : (G.Handle (w.engineOf s) r.Method r.Path r.HandlerFunc).2 = none) :
    With.loop G s w (r :: rs) = With.loop G s (callHandle G w s r).1 rs := by
  have h2 : (callHandle G w s r).2 = none := h
  rw [With.loop]
  split
  · next w1 heq => rw [heq]
  · next w1 msg heq => rw [heq] at h2; exact Option.noConfusion h2

theorem loop_cons_panic (w : World σ) (r : RouteInfo) (rs : List RouteInfo) (msg : String)
    (h : (G.Handle (w.engineOf s) r.Method r.Path r.HandlerFunc).2 = some msg) :
    With.loop G s w (r :: rs) = ((callHandle G w s r).1, some msg) := by
  have h2 : (callHandle G w s r).2 = some msg := h
  rw [With.loop]
  split
  · next w1 heq => rw [heq] at h2; exact Option.noConfusion h2
  · next w1 m heq =>
    rw [heq] at h2 ⊢
    simp only [Option.some.injEq] at h2
    rw [h2]

/-- The loop changes neither the backing arrays nor the server objects, nor
any engine but the one the server wraps. -/
theorem loop_frame (rs : List RouteInfo) : ∀ w : World σ,
    (With.loop G s w rs).1.mem = w.mem ∧ (With.loop G s w rs).1.servers = w.servers ∧
    ∀ a, a ≠ (w.servers s).Engine → (With.loop G s w rs).1.engines a = w.engines a := by
  induction rs with
  | nil => intro w; exact ⟨rfl, rfl, fun _ _ => rfl⟩
  | cons r rs ih =>
    intro w
    cases h : (G.Handle (w.engineOf s) r.Method r.Path r.HandlerFunc).2 with
    | none =>
      rw [loop_cons_ok G s w r rs h]
      obtain ⟨h1, h2, h3⟩ := ih (callHandle G w s r).1
      refine ⟨h1, h2, fun a ha => ?_⟩
      rw [h3 a ha]
      exact Function.update_noteq ha _ _
    | some msg =>
      rw [loop_cons_panic G s w r rs msg h]
      exact ⟨rfl, rfl, fun a ha => Function.update_noteq ha _ _⟩

/-- When every registration returns, the loop ends without a panic, the
engine is in the state the registrations lead to and one call per element
was logged, in order. -/
theorem loop_accepts (rs : List RouteInfo) : ∀ w : World σ,
    G.accepts (w.engineOf s) rs = true →
    (With.loop G s w rs).2 = none ∧
    (With.loop G s w rs).1.engineOf s = G.after (w.engineOf s) rs ∧
    (With.loop G s w rs).1.calls = w.calls ++ rs.map (Call.of (w.servers s).Engine) := by
  induction rs with
  | nil => intro w _; simp [With.loop, Gin.after]
  | cons r rs ih =>
    intro w hacc
    cases h : (G.Handle (w.engineOf s) r.Method r.Path r.HandlerFunc).2 with
    | some msg =>
      rw [Gin.accepts] at hacc
      split at hacc
      · next st1 heq => rw [heq] at h; exact Option.noConfusion h
      · exact Bool.noConfusion hacc
    | none =>
      have hst : (callHandle G w s r).1.engineOf s =
          (G.Handle (w.engineOf s) r.Method r.Path r.HandlerFunc).1 := by
        simp [callHandle, World.engineOf]
      have hacc2 : G.accepts ((callHandle G w s r).1.engineOf s) rs = true := by
        rw [hst]
        rw [Gin.accepts] at hacc
        split at hacc
        · next st1 heq => rw [heq]; exact hacc
        · exact Bool.noConfusion hacc
      rw [loop_cons_ok G s w r rs h]
      obtain ⟨h1, h2, h3⟩ := ih (callHandle G w s r).1 hacc2
      refine ⟨h1, ?_, ?_⟩
      · rw [h2, hst]; rfl
      · rw [h3]; simp [callHandle]

/-- The loop over a list that is two lists in a row is the loop over the
first and, unless that panicked, the loop over the second. -/
theorem loop_append (xs ys : List RouteInfo) : ∀ w : World σ,
    With.loop G s w (xs ++ ys) =
      match With.loop G s w xs with
      | (w1, none) => With.loop G s w1 ys
      | (w1, some msg) => (w1, some msg) := by
  induction xs with
  | nil => intro w; simp [With.loop]
  | cons r rs ih =>
    intro w
    cases h : (G.Handle (w.engineOf s) r.Method r.Path r.HandlerFunc).2 with
    | none =>
      rw [List.cons_append, loop_cons_ok G s w r (rs ++ ys) h, loop_cons_ok G s w r rs h]
      exact ih _
    | some msg =>
      rw [List.cons_append, loop_cons_panic G s w r (rs ++ ys) msg h,
        loop_cons_panic G s w r rs msg h]

/-- When the registrations of `pre` return and the next one panics, the loop
ends with that panic: the engine is left as the panicking call left the state
reached by `pre`, and the calls logged are those of `pre` and the panicking
one. -/
theorem loop_panics (pre : List RouteInfo) (r : RouteInfo) (post : List RouteInfo)
    (msg : String) (w : World σ)
    (hpre : G.accepts (w.engineOf s) pre = true)
    (hr : (G.Handle (G.after (w.engineOf s) pre) r.Method r.Path r.HandlerFunc).2 = some msg) :
    (With.loop G s w (pre ++ r :: post)).2 = some msg ∧
    (With.loop G s w (pre ++ r :: post)).1.engineOf s =
      (G.Handle (G.after (w.engineOf s) pre) r.Method r.Path r.HandlerFunc).1 ∧
    (With.loop G s w (pre ++ r :: post)).1.calls =
      w.calls ++ (pre ++ [r]).map (Call.of (w.servers s).Engine) := by
  obtain ⟨h1, h2, h3⟩ := loop_accepts G s pre w hpre
  obtain ⟨-, hs, -⟩ := loop_frame G s pre w
  rw [loop_append]
  generalize With.loop G s w pre = out at h1 h2 h3 hs
  obtain ⟨w1, o⟩ := out
  simp only at h1 h2 h3 hs
  subst h1
  simp only
  rw [← h2] at hr
  rw [loop_cons_panic G s w1 r post msg hr]
  refine ⟨rfl, ?_, ?_⟩
  · rw [← h2]; simp [callHandle, World.engineOf]
  · simp [callHandle, h3, hs]

/-- When not every registration returns, there is a first one that panics. -/
theorem not_accepts_split (rs : List RouteInfo) : ∀ st : σ, G.accepts st rs = false →
    ∃ pre r post msg, rs = pre ++ r :: post ∧ G.accepts st pre = true ∧
      (G.Handle (G.after st pre) r.Method r.Path r.HandlerFunc).2 = some msg := by
  induction rs with
  | nil => intro st h; simp [Gin.accepts] at h
  | cons r rs ih =>
    intro st h
    cases hh : (G.Handle st r.Method r.Path r.HandlerFunc).2 with
    | some msg => exact ⟨[], r, rs, msg, rfl, rfl, hh⟩
    | none =>
      rw [Gin.accepts] at h
      split at h
      · next st1 heq =>
        obtain ⟨pre, r2, post, msg, e1, e2, e3⟩ := ih st1 h
        have hst1 : (G.Handle st r.Method r.Path r.HandlerFunc).1 = st1 := by rw [heq]
        refine ⟨r :: pre, r2, post, msg, by rw [e1]; rfl, ?_, ?_⟩
        · rw [Gin.accepts, heq]; exact e2
        · rw [Gin.after, hst1]; exact e3
      · next st1 m heq => rw [heq] at hh; exact Option.noConfusion hh

/-- The loop reads only the method, the path and the handler of an element. -/
theorem loop_congr (xs ys : List RouteInfo)
    (h : List.Forall₂ (fun a b : RouteInfo =>
      a.Method = b.Method ∧ a.Path = b.Path ∧ a.HandlerFunc = b.HandlerFunc) xs ys) :
    ∀ w : World σ, With.loop G s w xs = With.loop G s w ys := by
  induction xs generalizing ys with
  | nil =>
    intro w
    rw [List.forall₂_nil_left_iff.1 h]
  | cons a as ih =>
    intro w
    obtain ⟨b, bs, ⟨hm, hp, hf⟩, htl, rfl⟩ := List.forall₂_cons_left_iff.1 h
    have hc : callHandle G w s a = callHandle G w s b := by
      simp [callHandle, Call.of, hm, hp, hf]
    rw [With.loop, With.loop, hc]
    split
    · exact ih bs htl _
    · rfl

end Loop

/-! ## `With` and `WithTwice` in terms of the loop -/

section WithLemmas

variable {σ : Type} (G : Gin σ) (w : World σ) (s : Nat) (f : Features)

theorem With_fst : (With G w s f).1 = (With.loop G s w (elems w.mem f.routes)).1 := by
  unfold With
  split <;> next heq => rw [heq]

theorem With_snd_ret (h : (With.loop G s w (elems w.mem f.routes)).2 = none) :
    (With G w s f).2 = Result.ret s := by
  unfold With
  split
  · rfl
  · next w1 msg heq => rw [heq] at h; exact Option.noConfusion h

theorem With_snd_panic (msg : String)
    (h : (With.loop G s w (elems w.mem f.routes)).2 = some msg) :
    (With G w s f).2 = Result.panic msg := by
  unfold With
  split
  · next w1 heq => rw [heq] at h; exact Option.noConfusion h
  · next w1 m heq =>
    rw [heq] at h
    simp only [Option.some.injEq] at h
    rw [h]

theorem With_mem : (With G w s f).1.mem = w.mem := by
  rw [With_fst]; exact (loop_frame G s _ w).1

theorem With_servers : (With G w s f).1.servers = w.servers := by
  rw [With_fst]; exact (loop_frame G s _ w).2.1

theorem With_ret_iff :
    (With G w s f).2 = Result.ret s ↔ (With.loop G s w (elems w.mem f.routes)).2 = none := by
  constructor
  · intro h
    cases hl : (With.loop G s w (elems w.mem f.routes)).2 with
    | none => rfl
    | some msg =>
      rw [With_snd_panic G w s f msg hl] at h
      exact Result.noConfusion h
  · exact With_snd_ret G w s f

/-- Two calls of `With` in a row are one run of the loop over the elements
taken twice. -/
theorem WithTwice_eq :
    (WithTwice G w s f).1 =
        (With.loop G s w (elems w.mem f.routes ++ elems w.mem f.routes)).1 ∧
    (WithTwice G w s f).2 =
      match (With.loop G s w (elems w.mem f.routes ++ elems w.mem f.routes)).2 with
      | none => Result.ret s
      | some msg => Result.panic msg := by
  rw [loop_append]
  unfold WithTwice
  cases hl : (With.loop G s w (elems w.mem f.routes)).2 with
  | some msg =>
    have h1 := With_fst G w s f
    have h2 := With_snd_panic G w s f msg hl
    generalize With G w s f = out at h1 h2
    obtain ⟨w1, o⟩ := out
    simp only at h1 h2
    subst h1 h2
    generalize With.loop G s w (elems w.mem f.routes) = lo at hl
    obtain ⟨w2, o2⟩ := lo
    simp only at hl
    subst hl
    exact ⟨rfl, rfl⟩
  | none =>
    have h1 := With_fst G w s f
    have h2 := With_snd_ret G w s f hl
    have hm := (loop_frame G s (elems w.mem f.routes) w).1
    generalize With G w s f = out at h1 h2
    obtain ⟨w1, o⟩ := out
    simp only at h1 h2
    subst h1 h2
    generalize With.loop G s w (elems w.mem f.routes) = lo at hl hm
    obtain ⟨w2, o2⟩ := lo
    simp only at hl hm
    subst hl
    simp only
    rw [← hm]
    constructor
    · exact With_fst G w2 s f
    · cases hl2 : (With.loop G s w2 (elems w2.mem f.routes)).2 with
      | none => exact With_snd_ret G w2 s f hl2
      | some msg => exact With_snd_panic G w2 s f msg hl2

end WithLemmas

/-! ## Consequences for `With` -/

section WithFacts

variable {σ : Type} (G : Gin σ) (w : World σ) (s : Nat)

theorem loop_none_iff (rs : List RouteInfo) :
    (With.loop G s w rs).2 = none ↔ G.accepts (w.engineOf s) rs = true := by
  constructor
  · intro h
    cases hacc : G.accepts (w.engineOf s) rs with
    | true => rfl
    | false =>
      obtain ⟨pre, r, post, msg, e1, e2, e3⟩ := not_accepts_split G rs _ hacc
      have hp := (loop_panics G s pre r post msg w e2 e3).1
      rw [← e1, h] at hp
      exact Option.noConfusion hp
  · exact fun h => (loop_accepts G s rs w h).1

/-- The calls the loop logs are an initial segment of the calls for the
elements, in order. -/
theorem loop_calls_initial (rs : List RouteInfo) :
    ∃ k, (With.loop G s w rs).1.calls =
      w.calls ++ (rs.map (Call.of (w.servers s).Engine)).take k := by
  cases hacc : G.accepts (w.engineOf s) rs with
  | true =>
    refine ⟨rs.length, ?_⟩
    rw [(loop_accepts G s rs w hacc).2.2, List.take_of_length_le (by simp)]
  | false =>
    obtain ⟨pre, r, post, msg, e1, e2, e3⟩ := not_accepts_split G rs _ hacc
    refine ⟨pre.length + 1, ?_⟩
    rw [e1, (loop_panics G s pre r post msg w e2 e3).2.2]
    simp [List.take_append_eq_append_take]

/-- The calls the loop logs are an initial segment, no longer than the list,
of the calls for the elements. -/
theorem loop_calls_initial_le (rs : List RouteInfo) :
    ∃ k, k ≤ rs.length ∧ (With.loop G s w rs).1.calls =
      w.calls ++ (rs.map (Call.of (w.servers s).Engine)).take k := by
  cases hacc : G.accepts (w.engineOf s) rs with
  | true =>
    refine ⟨rs.length, le_refl _, ?_⟩
    rw [(loop_accepts G s rs w hacc).2.2, List.take_of_length_le (by simp)]
  | false =>
    obtain ⟨pre, r, post, msg, e1, e2, e3⟩ := not_accepts_split G rs _ hacc
    refine ⟨pre.length + 1, by rw [e1]; simp, ?_⟩
    rw [e1, (loop_panics G s pre r post msg w e2 e3).2.2]
    simp [List.take_append_eq_append_take]

end WithFacts

/-! ## The bundle: `NewFeatures` and `GetRoutes` -/

/-- Claim C2. For every well-formed input slice `S` (nil, empty or not,
whatever its descriptors hold), `NewFeatures(S).GetRoutes()` returns a slice
of the length of `S` with the same elements in the same order: every index
below the length can be read in both and yields the same descriptor. -/
theorem GetRoutes_NewFeatures (mem : Mem) (S : RoutesInfo) (h : S.valid mem = true) :
    (GetRoutes mem (NewFeatures S)).2.len = S.len ∧
    elems (GetRoutes mem (NewFeatures S)).1 (GetRoutes mem (NewFeatures S)).2 = elems mem S ∧
    ∀ i, i < S.len →
      (index mem S i).isSome = true ∧
      index (GetRoutes mem (NewFeatures S)).1 (GetRoutes mem (NewFeatures S)).2 i =
        index mem S i := by
  have hl := elems_length mem S h
  have hnew := elems_new mem (elems mem S)
  rw [hl] at hnew
  have hg : GetRoutes mem (NewFeatures S) =
      (mem ++ [elems mem S], ⟨some mem.length, 0, S.len⟩) := GetRoutes_eq mem (NewFeatures S) h
  rw [hg]
  refine ⟨rfl, hnew, fun i hi => ?_⟩
  have hi2 : index (mem ++ [elems mem S]) ⟨some mem.length, 0, S.len⟩ i = (elems mem S)[i]? := by
    rw [index_eq_elems (mem ++ [elems mem S]) ⟨some mem.length, 0, S.len⟩ i hi, hnew]
  rw [index_eq_elems mem S i hi]
  refine ⟨?_, hi2⟩
  rw [List.getElem?_eq_getElem (by omega)]
  rfl

/-- Claim C2 at a slice of three descriptors, one with an empty method, an
empty path and a nil handler. -/
theorem GetRoutes_NewFeatures_witness :
    RoutesInfo.valid mem0 ⟨some 0, 0, 3⟩ = true ∧
    elems (GetRoutes mem0 (NewFeatures ⟨some 0, 0, 3⟩)).1
      (GetRoutes mem0 (NewFeatures ⟨some 0, 0, 3⟩)).2 = [getRoute, postRoute, badRoute] :=
  ⟨by decide, (GetRoutes_NewFeatures mem0 ⟨some 0, 0, 3⟩ (by decide)).2.1.trans (by decide)⟩

/-- Claim C3. For every well-formed `S`, valid index `i` and descriptor `v`,
the assignment `got[i] = v` on `got := f.GetRoutes()` succeeds and changes
`got` only: the elements of the bundle are still those of `S`, and so are
the elements a second `f.GetRoutes()` returns. -/
theorem GetRoutes_independent (mem : Mem) (S : RoutesInfo) (i : Nat) (v : RouteInfo)
    (h : S.valid mem = true) (hi : i < S.len) :
    ∃ m2, setIndex (GetRoutes mem (NewFeatures S)).1 (GetRoutes mem (NewFeatures S)).2 i v
        = some m2 ∧
      index m2 (GetRoutes mem (NewFeatures S)).2 i = some v ∧
      elems m2 (NewFeatures S).routes = elems mem S ∧
      elems (GetRoutes m2 (NewFeatures S)).1 (GetRoutes m2 (NewFeatures S)).2 = elems mem S := by
  have hl := elems_length mem S h
  have hg : GetRoutes mem (NewFeatures S) =
      (mem ++ [elems mem S], ⟨some mem.length, 0, S.len⟩) := GetRoutes_eq mem (NewFeatures S) h
  rw [hg]
  have hv2 : RoutesInfo.valid (mem ++ [(elems mem S).set i v]) S = true := valid_append mem _ S h
  have he2 : elems (mem ++ [(elems mem S).set i v]) S = elems mem S := elems_append mem _ S h
  refine ⟨mem ++ [(elems mem S).set i v], ?_, ?_, he2, ?_⟩
  · simp only [setIndex, if_pos hi, getElem?_length_append, Nat.zero_add, set_length_append]
  · simp only [index, if_pos hi, getElem?_length_append, Nat.zero_add, Option.some_bind]
    rw [List.getElem?_eq_getElem (by rw [List.length_set]; omega)]
    simp
  · rw [(GetRoutes_NewFeatures _ S hv2).2.1, he2]

/-- Claim C3 at the first element of a slice of two descriptors. -/
theorem GetRoutes_independent_witness :
    RoutesInfo.valid mem0 ⟨some 0, 0, 2⟩ = true ∧ 0 < (⟨some 0, 0, 2⟩ : RoutesInfo).len ∧
    ∃ m2, setIndex (GetRoutes mem0 (NewFeatures ⟨some 0, 0, 2⟩)).1
          (GetRoutes mem0 (NewFeatures ⟨some 0, 0, 2⟩)).2 0 getRouteRenamed = some m2 ∧
      index m2 (GetRoutes mem0 (NewFeatures ⟨some 0, 0, 2⟩)).2 0 = some getRouteRenamed ∧
      elems m2 (NewFeatures ⟨some 0, 0, 2⟩).routes = elems mem0 ⟨some 0, 0, 2⟩ ∧
      elems (GetRoutes m2 (NewFeatures ⟨some 0, 0, 2⟩)).1
        (GetRoutes m2 (NewFeatures ⟨some 0, 0, 2⟩)).2 = elems mem0 ⟨some 0, 0, 2⟩ :=
  ⟨by decide, by decide,
    GetRoutes_independent mem0 ⟨some 0, 0, 2⟩ 0 getRouteRenamed (by decide) (by decide)⟩

/-- Claim C8, the code at a failing input. The caller builds a bundle from the
slice holding `getRoute` and then assigns `S[0] = getRouteRenamed`: the
bundle shares the backing array of `S`, so `GetRoutes` now returns
`getRouteRenamed`, not the descriptor `S` held at construction. -/
theorem NewFeatures_shares_backing_array :
    elems mem0 (NewFeatures ⟨some 0, 0, 1⟩).routes = [getRoute] ∧
    setIndex mem0 ⟨some 0, 0, 1⟩ 0 getRouteRenamed
      = some [[getRouteRenamed, postRoute, badRoute], [getRouteRenamed]] ∧
    elems
      (GetRoutes [[getRouteRenamed, postRoute, badRoute], [getRouteRenamed]]
        (NewFeatures ⟨some 0, 0, 1⟩)).1
      (GetRoutes [[getRouteRenamed, postRoute, badRoute], [getRouteRenamed]]
        (NewFeatures ⟨some 0, 0, 1⟩)).2 = [getRouteRenamed] ∧
    getRouteRenamed ≠ getRoute := by
  decide

/-! ## The server: `With` -/

/-- Claim C1, as stated, fails, in the name, the length and the order of the
route list. On the engine that rejects duplicates the bundle holding
`getRouteRenamed` leaves the route `getRoute`: the name `other` never reaches
the engine, and no engine whatsoever lists the descriptors of every bundle.
On the same engine the bundle `getRoute`, `postRoute`, `usersRoute`,
`getRoute` panics at its fourth registration and leaves three routes. On the
engine that groups by method the bundle `getRoute`, `postRoute`, `usersRoute`
is accepted and listed as `getRoute`, `usersRoute`, `postRoute`. -/
theorem With_routes_differ_from_bundle :
    ((rejecting nameOf).Routes
        ((With (rejecting nameOf) (world0 (rejecting nameOf)) 0
          (NewFeatures ⟨some 1, 0, 1⟩)).1.engineOf 0)
      = [getRoute] ∧
     elems mem0 (⟨some 1, 0, 1⟩ : RoutesInfo) = [getRouteRenamed] ∧
     (rejecting nameOf).Routes
        ((With (rejecting nameOf) (world0 (rejecting nameOf)) 0
          (NewFeatures ⟨some 1, 0, 1⟩)).1.engineOf 0)
      ≠ elems mem0 (⟨some 1, 0, 1⟩ : RoutesInfo)) ∧
    (¬ ∃ (σ : Type) (G : Gin σ), ∀ S : RoutesInfo, S.valid mem0 = true →
        G.Routes ((With G (world0 G) 0 (NewFeatures S)).1.engineOf 0) = elems mem0 S) ∧
    ((With (rejecting nameOf) (world2 (rejecting nameOf)) 0 (NewFeatures ⟨some 0, 0, 4⟩)).2
        = Result.panic "handlers are already registered for path" ∧
     (rejecting nameOf).Routes
        ((With (rejecting nameOf) (world2 (rejecting nameOf)) 0
          (NewFeatures ⟨some 0, 0, 4⟩)).1.engineOf 0)
      = [getRoute, postRoute, usersRoute] ∧
     elems mem2 (⟨some 0, 0, 4⟩ : RoutesInfo) = [getRoute, postRoute, usersRoute, getRoute]) ∧
    ((With (grouping nameOf) (world2 (grouping nameOf)) 0 (NewFeatures ⟨some 0, 0, 3⟩)).2
        = Result.ret 0 ∧
     (grouping nameOf).Routes
        ((With (grouping nameOf) (world2 (grouping nameOf)) 0
          (NewFeatures ⟨some 0, 0, 3⟩)).1.engineOf 0)
      = [getRoute, usersRoute, postRoute] ∧
     elems mem2 (⟨some 0, 0, 3⟩ : RoutesInfo) = [getRoute, postRoute, usersRoute]) := by
  refine ⟨by decide, ?_, by decide, by decide⟩
  rintro ⟨σ, G, hall⟩
  have h1 := hall ⟨some 0, 0, 1⟩ (by decide)
  have h2 := hall ⟨some 1, 0, 1⟩ (by decide)
  have hw : With G (world0 G) 0 (NewFeatures ⟨some 0, 0, 1⟩) =
      With G (world0 G) 0 (NewFeatures ⟨some 1, 0, 1⟩) := by
    unfold With
    rw [loop_congr G 0 (elems (world0 G).mem (NewFeatures ⟨some 0, 0, 1⟩).routes)
      (elems (world0 G).mem (NewFeatures ⟨some 1, 0, 1⟩).routes)
      (List.Forall₂.cons ⟨rfl, rfl, rfl⟩ List.Forall₂.nil)]
  rw [hw, h2] at h1
  exact absurd h1 (by decide)

/-- Claim C1, amended. For every engine, new when `With` is called, and every
well-formed `S`: the calls of `Handle(r.Method, r.Path, r.HandlerFunc)` that
`With` issues are an initial segment, of at most `len(S)` calls, of the calls
for the descriptors of `S` in list order; `With` returns the server exactly
when the engine accepts these registrations, and then it has issued all
`len(S)` of them, each once, and the route list is the one the engine gives
after these registrations on a new engine. That list is fixed by the methods,
paths and handlers alone: a bundle that agrees with `S` on them leaves the
same list, so of two such bundles with different elements at most one is
listed back. -/
theorem With_fresh_registers {σ : Type} (G : Gin σ) (w : World σ) (s : Nat) (S : RoutesInfo)
    (hfresh : w.engineOf s = G.New) (hv : S.valid w.mem = true) :
    (∃ k, k ≤ S.len ∧ (With G w s (NewFeatures S)).1.calls =
      w.calls ++ ((elems w.mem S).map (Call.of (w.servers s).Engine)).take k) ∧
    ((With G w s (NewFeatures S)).2 = Result.ret s ↔ G.accepts G.New (elems w.mem S) = true) ∧
    (G.accepts G.New (elems w.mem S) = true →
      (With G w s (NewFeatures S)).1.calls =
        w.calls ++ (elems w.mem S).map (Call.of (w.servers s).Engine) ∧
      (With G w s (NewFeatures S)).1.calls.length = w.calls.length + S.len ∧
      (With G w s (NewFeatures S)).1.engineOf s = G.after G.New (elems w.mem S) ∧
      G.Routes ((With G w s (NewFeatures S)).1.engineOf s) =
        G.Routes (G.after G.New (elems w.mem S))) ∧
    (∀ S2 : RoutesInfo,
      List.Forall₂ (fun a b : RouteInfo =>
        a.Method = b.Method ∧ a.Path = b.Path ∧ a.HandlerFunc = b.HandlerFunc)
        (elems w.mem S) (elems w.mem S2) →
      G.Routes ((With G w s (NewFeatures S2)).1.engineOf s) =
        G.Routes ((With G w s (NewFeatures S)).1.engineOf s) ∧
      (elems w.mem S2 ≠ elems w.mem S →
        ¬ (G.Routes ((With G w s (NewFeatures S)).1.engineOf s) = elems w.mem S ∧
           G.Routes ((With G w s (NewFeatures S2)).1.engineOf s) = elems w.mem S2))) := by
  have hl := elems_length w.mem S hv
  have hfst : (With G w s (NewFeatures S)).1 = (With.loop G s w (elems w.mem S)).1 :=
    With_fst G w s (NewFeatures S)
  have hret : (With G w s (NewFeatures S)).2 = Result.ret s ↔
      (With.loop G s w (elems w.mem S)).2 = none := With_ret_iff G w s (NewFeatures S)
  refine ⟨?_, ?_, ?_, ?_⟩
  · obtain ⟨k, hk, hc⟩ := loop_calls_initial_le G w s (elems w.mem S)
    exact ⟨k, by omega, by rw [hfst]; exact hc⟩
  · rw [hret, loop_none_iff, hfresh]
  · intro hacc
    rw [← hfresh] at hacc
    obtain ⟨-, h2, h3⟩ := loop_accepts G s _ w hacc
    rw [hfresh] at h2
    refine ⟨by rw [hfst]; exact h3, ?_, by rw [hfst]; exact h2, by rw [hfst, h2]⟩
    rw [hfst, h3, List.length_append, List.length_map, hl]
  · intro S2 hagree
    have hw : With G w s (NewFeatures S2) = With G w s (NewFeatures S) := by
      unfold With
      rw [loop_congr G s (elems w.mem (NewFeatures S).routes)
        (elems w.mem (NewFeatures S2).routes) hagree]
    refine ⟨by rw [hw], ?_⟩
    rintro hne ⟨e1, e2⟩
    rw [hw, e1] at e2
    exact hne e2.symm

/-- Claim C1, amended, at the engine that rejects duplicates and the bundle
of `getRoute` and `postRoute`. -/
theorem With_fresh_registers_witness :
    (world0 (rejecting nameOf)).engineOf 0 = (rejecting nameOf).New ∧
    RoutesInfo.valid (world0 (rejecting nameOf)).mem ⟨some 0, 0, 2⟩ = true ∧
    (rejecting nameOf).accepts (rejecting nameOf).New
      (elems (world0 (rejecting nameOf)).mem ⟨some 0, 0, 2⟩) = true ∧
    (With (rejecting nameOf) (world0 (rejecting nameOf)) 0 (NewFeatures ⟨some 0, 0, 2⟩)).1.calls
      = [Call.of 0 getRoute, Call.of 0 postRoute] ∧
    (rejecting nameOf).Routes
      ((With (rejecting nameOf) (world0 (rejecting nameOf)) 0
        (NewFeatures ⟨some 0, 0, 2⟩)).1.engineOf 0) = [getRoute, postRoute] := by
  have h := (With_fresh_registers (rejecting nameOf) (world0 (rejecting nameOf)) 0
    ⟨some 0, 0, 2⟩ rfl (by decide)).2.2.1 (by decide)
  refine ⟨rfl, by decide, by decide, ?_, ?_⟩
  · rw [h.1]; decide
  · rw [h.2.2.2]; decide

/-- Claim C4. For every engine in any state and every slice of length 0 (nil
or not), `With` on the bundle built from it returns the server and leaves the
whole world as it was: no call is logged and no engine changes. -/
theorem With_empty {σ : Type} (G : Gin σ) (w : World σ) (s : Nat) (S : RoutesInfo)
    (h : S.len = 0) : With G w s (NewFeatures S) = (w, Result.ret s) := by
  have he : elems w.mem (NewFeatures S).routes = [] := by
    show elems w.mem S = []
    unfold elems
    cases S.arr <;> simp [h]
  unfold With
  rw [he]
  rfl

/-- Claim C4 at the nil slice and an engine that holds two routes. -/
theorem With_empty_witness :
    (⟨none, 0, 0⟩ : RoutesInfo).len = 0 ∧
    (rejecting nameOf).Routes ((world1 (rejecting nameOf)).engineOf 0)
      = [getRoute, postRoute] ∧
    With (rejecting nameOf) (world1 (rejecting nameOf)) 0 (NewFeatures ⟨none, 0, 0⟩)
      = (world1 (rejecting nameOf), Result.ret 0) :=
  ⟨rfl, by decide, With_empty (rejecting nameOf) (world1 (rejecting nameOf)) 0 ⟨none, 0, 0⟩ rfl⟩

/-- Claim C5, the code at a failing input. On a new engine that rejects
duplicates, one `With` of the bundle holding `getRoute` returns and leaves
exactly that route. A second `With` of the same bundle calls `Handle` for
`getRoute` again and panics with the rejection of the engine: the second call
does not return, so calling `With` twice is not what calling it once is. -/
theorem WithTwice_second_call_panics :
    elems mem0 (⟨some 0, 0, 1⟩ : RoutesInfo) = [getRoute] ∧
    (With (rejecting nameOf) (world0 (rejecting nameOf)) 0 (NewFeatures ⟨some 0, 0, 1⟩)).2
      = Result.ret 0 ∧
    (rejecting nameOf).Routes
      ((With (rejecting nameOf) (world0 (rejecting nameOf)) 0
        (NewFeatures ⟨some 0, 0, 1⟩)).1.engineOf 0) = [getRoute] ∧
    (WithTwice (rejecting nameOf) (world0 (rejecting nameOf)) 0 (NewFeatures ⟨some 0, 0, 1⟩)).2
      = Result.panic "handlers are already registered for path" ∧
    (WithTwice (rejecting nameOf) (world0 (rejecting nameOf)) 0
        (NewFeatures ⟨some 0, 0, 1⟩)).1.calls
      = [Call.of 0 getRoute, Call.of 0 getRoute] ∧
    (WithTwice (rejecting nameOf) (world0 (rejecting nameOf)) 0 (NewFeatures ⟨some 0, 0, 1⟩))
      ≠ With (rejecting nameOf) (world0 (rejecting nameOf)) 0 (NewFeatures ⟨some 0, 0, 1⟩) := by
  refine ⟨by decide, by decide, by decide, by decide, by decide, ?_⟩
  intro h
  exact absurd (congrArg Prod.snd h) (by decide)

/-- Claim C6, as stated, fails. On the engine that rejects duplicates, two
calls of `With` on the bundle of `getRoute` and `postRoute` issue three calls
of `Handle`, not four: the third is rejected and the second `With` stops. -/
theorem WithTwice_three_calls :
    (WithTwice (rejecting nameOf) (world0 (rejecting nameOf)) 0
        (NewFeatures ⟨some 0, 0, 2⟩)).1.calls
      = [Call.of 0 getRoute, Call.of 0 postRoute, Call.of 0 getRoute] ∧
    (WithTwice (rejecting nameOf) (world0 (rejecting nameOf)) 0
        (NewFeatures ⟨some 0, 0, 2⟩)).1.calls.length
      ≠ 2 * (⟨some 0, 0, 2⟩ : RoutesInfo).len ∧
    (WithTwice (rejecting nameOf) (world0 (rejecting nameOf)) 0 (NewFeatures ⟨some 0, 0, 2⟩)).2
      = Result.panic "handlers are already registered for path" := by
  decide

/-- Claim C6, amended. Two calls of `With` in a row skip, merge and reorder
nothing: the calls of `Handle` they issue are always an initial segment of
the calls for `S` followed by the calls for `S`. When the engine accepts all
of these registrations both calls return, the calls issued are all of them
(`2 * len(S)` calls) and the engine is in the state they lead to; when one is
rejected `With` panics there, the rejected call being the last one issued. -/
theorem WithTwice_calls {σ : Type} (G : Gin σ) (w : World σ) (s : Nat) (f : Features) :
    (∃ k, (WithTwice G w s f).1.calls =
      w.calls ++ ((elems w.mem f.routes ++ elems w.mem f.routes).map
        (Call.of (w.servers s).Engine)).take k) ∧
    (G.accepts (w.engineOf s) (elems w.mem f.routes ++ elems w.mem f.routes) = true →
      (WithTwice G w s f).2 = Result.ret s ∧
      (WithTwice G w s f).1.calls =
        w.calls ++ (elems w.mem f.routes ++ elems w.mem f.routes).map
          (Call.of (w.servers s).Engine) ∧
      (WithTwice G w s f).1.engineOf s =
        G.after (w.engineOf s) (elems w.mem f.routes ++ elems w.mem f.routes) ∧
      (f.routes.valid w.mem = true →
        (WithTwice G w s f).1.calls.length = w.calls.length + 2 * f.routes.len)) ∧
    (∀ pre r post msg, elems w.mem f.routes ++ elems w.mem f.routes = pre ++ r :: post →
      G.accepts (w.engineOf s) pre = true →
      (G.Handle (G.after (w.engineOf s) pre) r.Method r.Path r.HandlerFunc).2 = some msg →
      (WithTwice G w s f).2 = Result.panic msg ∧
      (WithTwice G w s f).1.calls = w.calls ++ (pre ++ [r]).map (Call.of (w.servers s).Engine)) := by
  obtain ⟨t1, t2⟩ := WithTwice_eq G w s f
  refine ⟨?_, ?_, ?_⟩
  · rw [t1]
    exact loop_calls_initial G w s _
  · intro hacc
    obtain ⟨h1, h2, h3⟩ := loop_accepts G s _ w hacc
    refine ⟨by rw [t2, h1], by rw [t1, h3], by rw [t1, h2], fun hv => ?_⟩
    rw [t1, h3]
    simp only [List.length_append, List.length_map, elems_length w.mem f.routes hv]
    omega
  · intro pre r post msg hsplit hpre hr
    obtain ⟨h1, -, h3⟩ := loop_panics G s pre r post msg w hpre hr
    rw [← hsplit] at h1 h3
    exact ⟨by rw [t2, h1], by rw [t1, h3]⟩

/-- Claim C7. `With` panics exactly when some registration panics in the
engine, the registrations before it having returned. It then ends with the
panic of that first failing registration: the calls issued are those for the
descriptors before it and the failing one, and the engine is left in the
state the failing call left the state reached by the earlier registrations
in, nothing being undone. When every registration returns, `With` returns
the server after one call per descriptor. -/
theorem With_fails_iff {σ : Type} (G : Gin σ) (w : World σ) (s : Nat) (f : Features) :
    ((∃ msg, (With G w s f).2 = Result.panic msg) ↔
      ∃ pre r post msg, elems w.mem f.routes = pre ++ r :: post ∧
        G.accepts (w.engineOf s) pre = true ∧
        (G.Handle (G.after (w.engineOf s) pre) r.Method r.Path r.HandlerFunc).2 = some msg) ∧
    (∀ pre r post msg, elems w.mem f.routes = pre ++ r :: post →
      G.accepts (w.engineOf s) pre = true →
      (G.Handle (G.after (w.engineOf s) pre) r.Method r.Path r.HandlerFunc).2 = some msg →
      (With G w s f).2 = Result.panic msg ∧
      (With G w s f).1.engineOf s =
        (G.Handle (G.after (w.engineOf s) pre) r.Method r.Path r.HandlerFunc).1 ∧
      (With G w s f).1.calls = w.calls ++ (pre ++ [r]).map (Call.of (w.servers s).Engine)) ∧
    (G.accepts (w.engineOf s) (elems w.mem f.routes) = true →
      (With G w s f).2 = Result.ret s ∧
      (With G w s f).1.engineOf s = G.after (w.engineOf s) (elems w.mem f.routes) ∧
      (With G w s f).1.calls =
        w.calls ++ (elems w.mem f.routes).map (Call.of (w.servers s).Engine)) := by
  have hfail : ∀ pre r post msg, elems w.mem f.routes = pre ++ r :: post →
      G.accepts (w.engineOf s) pre = true →
      (G.Handle (G.after (w.engineOf s) pre) r.Method r.Path r.HandlerFunc).2 = some msg →
      (With G w s f).2 = Result.panic msg ∧
      (With G w s f).1.engineOf s =
        (G.Handle (G.after (w.engineOf s) pre) r.Method r.Path r.HandlerFunc).1 ∧
      (With G w s f).1.calls =
        w.calls ++ (pre ++ [r]).map (Call.of (w.servers s).Engine) := by
    intro pre r post msg hsplit hpre hr
    obtain ⟨h1, h2, h3⟩ := loop_panics G s pre r post msg w hpre hr
    rw [← hsplit] at h1 h2 h3
    refine ⟨With_snd_panic G w s f msg h1, ?_, ?_⟩
    · rw [With_fst]; exact h2
    · rw [With_fst]; exact h3
  refine ⟨⟨?_, ?_⟩, hfail, ?_⟩
  · rintro ⟨msg, hmsg⟩
    cases hacc : G.accepts (w.engineOf s) (elems w.mem f.routes) with
    | true =>
      rw [With_snd_ret G w s f (loop_accepts G s _ w hacc).1] at hmsg
      exact Result.noConfusion hmsg
    | false => exact not_accepts_split G _ _ hacc
  · rintro ⟨pre, r, post, msg, e1, e2, e3⟩
    exact ⟨msg, (hfail pre r post msg e1 e2 e3).1⟩
  · intro hacc
    obtain ⟨h1, h2, h3⟩ := loop_accepts G s _ w hacc
    refine ⟨With_snd_ret G w s f h1, ?_, ?_⟩
    · rw [With_fst]; exact h2
    · rw [With_fst]; exact h3

/-- Claim C7 at the engine that rejects an empty method and the bundle of
`getRoute`, `postRoute` and `badRoute`: `With` panics at the third
registration, three calls were issued and the first two routes are still
registered. -/
theorem With_fails_iff_witness :
    (With (rejecting nameOf) (world0 (rejecting nameOf)) 0 (NewFeatures ⟨some 0, 0, 3⟩)).2
      = Result.panic "http method is not valid" ∧
    (rejecting nameOf).Routes
      ((With (rejecting nameOf) (world0 (rejecting nameOf)) 0
        (NewFeatures ⟨some 0, 0, 3⟩)).1.engineOf 0) = [getRoute, postRoute] ∧
    (With (rejecting nameOf) (world0 (rejecting nameOf)) 0 (NewFeatures ⟨some 0, 0, 3⟩)).1.calls
      = [Call.of 0 getRoute, Call.of 0 postRoute, Call.of 0 badRoute] := by
  have h := (With_fails_iff (rejecting nameOf) (world0 (rejecting nameOf)) 0
    (NewFeatures ⟨some 0, 0, 3⟩)).2.1 [getRoute, postRoute] badRoute [] "http method is not valid"
    (by decide) (by decide) (by decide)
  refine ⟨h.1, ?_, ?_⟩
  · rw [h.2.1]; decide
  · rw [h.2.2]; decide

/-- Claim C9, as stated, fails. On the engine that rejects an empty method,
`With` on the bundle holding `badRoute` panics: it does not return the
server. -/
theorem With_does_not_return :
    elems mem0 (⟨some 0, 2, 1⟩ : RoutesInfo) = [badRoute] ∧
    (With (rejecting nameOf) (world0 (rejecting nameOf)) 0 (NewFeatures ⟨some 0, 2, 1⟩)).2
      = Result.panic "http method is not valid" ∧
    (With (rejecting nameOf) (world0 (rejecting nameOf)) 0 (NewFeatures ⟨some 0, 2, 1⟩)).2
      ≠ Result.ret 0 := by
  decide

/-- Claim C9, amended. Whether `With` returns or panics, the server objects
(so the field `s.Engine`), the backing arrays (so what `f.GetRoutes()`
returns) and every engine but the one the server wraps are as before the
call. `With` returns exactly when the engine accepts every registration, and
what it then returns is the server it was called on. -/
theorem With_changes_engine_only {σ : Type} (G : Gin σ) (w : World σ) (s : Nat)
    (f : Features) :
    (With G w s f).1.servers = w.servers ∧
    (With G w s f).1.mem = w.mem ∧
    GetRoutes (With G w s f).1.mem f = GetRoutes w.mem f ∧
    (∀ a, a ≠ (w.servers s).Engine → (With G w s f).1.engines a = w.engines a) ∧
    (∀ r, (With G w s f).2 = Result.ret r → r = s) ∧
    ((With G w s f).2 = Result.ret s ↔
      G.accepts (w.engineOf s) (elems w.mem f.routes) = true) := by
  refine ⟨With_servers G w s f, With_mem G w s f, by rw [With_mem], ?_, ?_, ?_⟩
  · rw [With_fst]
    exact (loop_frame G s _ w).2.2
  · intro r hr
    cases hl : (With.loop G s w (elems w.mem f.routes)).2 with
    | none =>
      rw [With_snd_ret G w s f hl] at hr
      injection hr with hr
      exact hr.symm
    | some msg =>
      rw [With_snd_panic G w s f msg hl] at hr
      exact Result.noConfusion hr
  · rw [With_ret_iff, loop_none_iff]

/-- Claim C10. When the elements of two bundles are equally many and agree
index by index on `Method`, `Path` and `HandlerFunc`, `With` ends the same
way on both and leaves the same world: the same calls logged, the same
engine states, whatever the `Handler` names are. -/
theorem With_ignores_handler_name {σ : Type} (G : Gin σ) (w : World σ) (s : Nat)
    (f1 f2 : Features)
    (h : List.Forall₂ (fun a b : RouteInfo =>
      a.Method = b.Method ∧ a.Path = b.Path ∧ a.HandlerFunc = b.HandlerFunc)
      (elems w.mem f1.routes) (elems w.mem f2.routes)) :
    With G w s f1 = With G w s f2 := by
  unfold With
  rw [loop_congr G s _ _ h]

/-- Claim C10 at the bundles holding `getRoute` and `getRouteRenamed`, which
differ in the handler name only. -/
theorem With_ignores_handler_name_witness :
    getRoute.Handler ≠ getRouteRenamed.Handler ∧
    List.Forall₂ (fun a b : RouteInfo =>
      a.Method = b.Method ∧ a.Path = b.Path ∧ a.HandlerFunc = b.HandlerFunc)
      (elems (world0 (rejecting nameOf)).mem (NewFeatures ⟨some 0, 0, 1⟩).routes)
      (elems (world0 (rejecting nameOf)).mem (NewFeatures ⟨some 1, 0, 1⟩).routes) ∧
    With (rejecting nameOf) (world0 (rejecting nameOf)) 0 (NewFeatures ⟨some 0, 0, 1⟩)
      = With (rejecting nameOf) (world0 (rejecting nameOf)) 0 (NewFeatures ⟨some 1, 0, 1⟩) :=
  ⟨by decide, List.Forall₂.cons ⟨rfl, rfl, rfl⟩ List.Forall₂.nil,
    With_ignores_handler_name (rejecting nameOf) (world0 (rejecting nameOf)) 0
      (NewFeatures ⟨some 0, 0, 1⟩) (NewFeatures ⟨some 1, 0, 1⟩)
      (List.Forall₂.cons ⟨rfl, rfl, rfl⟩ List.Forall₂.nil)⟩

end Ginmill
